/-
  Verification of the WebM muxer from src/lib/whammy (source unit part_008):
  the EBML variable-length size codec, the element framer, the VP8 bitstream
  extractor, the SimpleBlock encoder, the container assembler and the muxer
  entry point.

  Byte buffers are modelled as `List Nat` (each element a byte 0..255).
  JavaScript coerces operands of `>>`, `&` and `|` to 32-bit two's-complement
  integers; the source relies on this in its byte-writing loops, so that
  coercion is modelled explicitly (`jsShr8`, `jsInt32`).
-/
import Mathlib

namespace Whammy

/-- Arithmetic shift right by 8 of a JavaScript number (`value >>= 8`): the
operand is coerced to a 32-bit two's-complement integer and shifted with sign
extension.  The result is returned as its 32-bit bit pattern (a natural
number below 2^32). -/
def jsShr8 (v : Nat) : Nat :=
  if v % 2 ^ 32 < 2 ^ 31 then v % 2 ^ 32 / 2 ^ 8
  else v % 2 ^ 32 / 2 ^ 8 + 0xFF000000

/-- The shared byte-writing loop of `uintToArray` and `encodeVint`:
`for (let i = k - 1; i >= 0; i--) { arr[i] = value & 0xff; value >>= 8 }`.
`value & 0xff` equals `value % 2^8` because the ToInt32 coercion truncates at
2^32, a multiple of 2^8. -/
def jsBytesBE : Nat → Nat → List Nat
  | 0, _ => []
  | k + 1, v => jsBytesBE k (jsShr8 v) ++ [v % 2 ^ 8]

/-- Source `uintToArray(value, bytes = 1)`: big-endian fixed-width write via
the JavaScript byte loop. -/
def uintToArray (value : Nat) (bytes : Nat := 1) : List Nat :=
  jsBytesBE bytes value

/-- The length-selection loop of `encodeVint`:
`while (value >= Math.pow(2, 7 * length) - 1 && length < 8) length++`.
The loop runs at most 7 times (it stops once `length = 8`), so fuel 8 is
exact. -/
def vintLengthFrom (v : Nat) : Nat → Nat → Nat
  | l, 0 => l
  | l, fuel + 1 =>
    if 2 ^ (7 * l) - 1 ≤ v ∧ l < 8 then vintLengthFrom v (l + 1) fuel else l

/-- The byte length chosen by `encodeVint` for `value` (starts at 1). -/
def vintLength (v : Nat) : Nat :=
  vintLengthFrom v 1 8

/-- Source `encodeVint(value)`: write `value` with the JavaScript byte loop
into `vintLength value` bytes, then `buffer[0] |= 1 << (8 - length)`. -/
def encodeVint (value : Nat) : List Nat :=
  match jsBytesBE (vintLength value) value with
  | [] => []
  | b :: rest => (b ||| 1 <<< (8 - vintLength value)) :: rest

/-- Source `encodeElement(id, data)`: `id || encodeVint(data.length) || data`. -/
def encodeElement (id : List Nat) (data : List Nat) : List Nat :=
  id ++ encodeVint data.length ++ data

/-- The four-byte signature test of the extractor scan loop at offset `i`
(`webp[i] === 0x56 && ... && webp[i+3] === 0x20`); an out-of-bounds JavaScript
index yields `undefined`, which compares unequal to every byte, and no
signature byte is 0, so `getD _ 0` is a faithful model. -/
def sigAt (webp : List Nat) (i : Nat) : Bool :=
  webp.getD i 0 == 0x56 && webp.getD (i + 1) 0 == 0x50 &&
    webp.getD (i + 2) 0 == 0x38 && webp.getD (i + 3) 0 == 0x20

/-- A 32-bit pattern read as a signed JavaScript int32: the source assembles
the chunk size with `|`, which coerces to a signed 32-bit integer. -/
def jsInt32 (u : Nat) : Int :=
  if u % 2 ^ 32 < 2 ^ 31 then ((u % 2 ^ 32 : Nat) : Int)
  else ((u % 2 ^ 32 : Nat) : Int) - 2 ^ 32

/-- `TypedArray.prototype.subarray(begin, end)`: negative indices count from
the end, both are clamped to `[0, length]`, and an end before the begin
yields the empty view. -/
def jsSubarray (a : List Nat) (b e : Int) : List Nat :=
  let n : Int := a.length
  let rb := if b < 0 then max (n + b) 0 else min b n
  let re := if e < 0 then max (n + e) 0 else min e n
  (a.drop rb.toNat).take (re - rb).toNat

/-- Source `extractVP8Bitstream(webp)`: scan `i = 0 .. webp.length - 10` for
the ASCII signature `VP8 `, read the following 4 bytes as a little-endian
(signed, per JavaScript `|`) chunk size, and return the slice starting 8
bytes after the match; `none` models the thrown `Error` when no signature is
found (for buffers shorter than 10 bytes the loop bound is negative and the
loop body never runs). -/
def extractVP8Bitstream (webp : List Nat) : Option (List Nat) :=
  if 10 ≤ webp.length then
    match (List.range (webp.length - 9)).find? (fun i => sigAt webp i) with
    | some i =>
      some (jsSubarray webp ((i + 8 : Nat) : Int)
        (((i + 8 : Nat) : Int) + jsInt32 (webp.getD (i + 4) 0 +
          webp.getD (i + 5) 0 * 2 ^ 8 + webp.getD (i + 6) 0 * 2 ^ 16 +
          webp.getD (i + 7) 0 * 2 ^ 24)))
    | none => none
  else none

/-- ASCII whitespace removed by the forgiving-base64 decode behind `atob`. -/
def isAsciiWs (c : Char) : Bool :=
  c == ' ' || c == '\t' || c == '\n' || c == '\x0c' || c == '\r'

/-- Value of a standard base64 alphabet character. -/
def b64Val (c : Char) : Option Nat :=
  if 'A' ≤ c ∧ c ≤ 'Z' then some (c.toNat - 65)
  else if 'a' ≤ c ∧ c ≤ 'z' then some (c.toNat - 97 + 26)
  else if '0' ≤ c ∧ c ≤ '9' then some (c.toNat - 48 + 52)
  else if c = '+' then some 62
  else if c = '/' then some 63
  else none

/-- Map a fallible function over a list, failing the whole traversal at the
first failure; models a `frames.map(...)` whose callback can throw. -/
def mapOrNone (g : α → Option β) : List α → Option (List β)
  | [] => some []
  | a :: as =>
    match g a with
    | none => none
    | some b =>
      match mapOrNone g as with
      | none => none
      | some bs => some (b :: bs)

/-- Remove at most two trailing `=` padding characters. -/
def dropTrailingEq (l : List Char) : List Char :=
  let l1 := if l.getLast? = some '=' then l.dropLast else l
  if l1.getLast? = some '=' then l1.dropLast else l1

/-- Regroup base64 sextets into bytes; a trailing group of 2 or 3 sextets
contributes 1 or 2 bytes, left-over bits are discarded (forgiving decode). -/
def sextets : List Nat → List Nat
  | a :: b :: c :: d :: rest =>
    (a * 4 + b / 16) :: ((b % 16) * 16 + c / 4) :: ((c % 4) * 64 + d) ::
      sextets rest
  | [a, b] => [a * 4 + b / 16]
  | [a, b, c] => [a * 4 + b / 16, (b % 16) * 16 + c / 4]
  | _ => []

/-- JavaScript `atob` (forgiving-base64 decode): strip ASCII whitespace,
strip up to two `=` of padding when the length is a multiple of 4, reject a
length congruent to 1 mod 4 and any character outside the alphabet, then
regroup sextets into bytes.  `none` models the thrown `InvalidCharacterError`. -/
def atob (s : List Char) : Option (List Nat) :=
  let t := s.filter (fun c => !(isAsciiWs c))
  let t2 := if t.length % 4 == 0 then dropTrailingEq t else t
  if t2.length % 4 == 1 then none
  else
    match mapOrNone b64Val t2 with
    | none => none
    | some vals => some (sextets vals)

/-- Source `dataURLToUint8Array(dataURL)`: take everything after the first
comma (the whole string when there is none, since `indexOf` returns -1 and
`slice(0)` is the identity) and base64-decode it; the `charCodeAt` loop turns
the latin-1 string into exactly the decoded bytes. -/
def dataURLToUint8Array (dataURL : List Char) : Option (List Nat) :=
  if dataURL.contains ',' then
    atob (dataURL.drop (dataURL.findIdx (fun c => c == ',') + 1))
  else atob dataURL

/-- Standard big-endian byte write (no 32-bit truncation); agrees with
`jsBytesBE` for values below 2^31 and is used to state decoding. -/
def beBytes : Nat → Nat → List Nat
  | 0, _ => []
  | k + 1, v => beBytes k (v / 2 ^ 8) ++ [v % 2 ^ 8]

/-- Big-endian accumulation of a byte list onto `acc`. -/
def beVal (acc : Nat) (l : List Nat) : Nat :=
  l.foldl (fun a b => a * 2 ^ 8 + b) acc

/-- Round a nonnegative rational to the nearest integer, ties to even
(IEEE 754 default rounding). -/
def roundHalfEven (x : ℚ) : Nat :=
  let n := (⌊x⌋).toNat
  let r := x - (⌊x⌋ : ℚ)
  if r < 1 / 2 then n
  else if 1 / 2 < r then n + 1
  else if n % 2 = 0 then n else n + 1

/-- IEEE 754 binary64 bit pattern of the double nearest to `q` (ties to
even), models the value stored by `view.setFloat64`. -/
def float64Bits (q : ℚ) : Nat :=
  if q = 0 then 0
  else
    let s : Nat := if q < 0 then 1 else 0
    let a := |q|
    let e : ℤ := max (Int.log 2 a) (-1022)
    let m := roundHalfEven (a * (2 : ℚ) ^ ((52 : ℤ) - e))
    if m = 0 then s * 2 ^ 63
    else
      let e2 : ℤ := if 2 ^ 53 ≤ m then e + 1 else e
      let m2 : Nat := if 2 ^ 53 ≤ m then m / 2 else m
      if 1023 < e2 then s * 2 ^ 63 + 2047 * 2 ^ 52
      else if 2 ^ 52 ≤ m2 then
        s * 2 ^ 63 + (e2 + 1023).toNat * 2 ^ 52 + (m2 - 2 ^ 52)
      else s * 2 ^ 63 + m2

/-- Source `float64ToArray(value)`: the 8 big-endian bytes written by
`DataView.setFloat64`. -/
def float64ToArray (q : ℚ) : List Nat :=
  beBytes 8 (float64Bits q)

/-- Source `createSimpleBlock(vp8Frame, timecode)`: track-number vint `0x81`
(track 1), 2-byte big-endian timecode (written with JavaScript `>>` and `&`),
keyframe flag byte `0x80`, then the frame bytes, framed as element `0xa3`. -/
def createSimpleBlock (vp8Frame : List Nat) (timecode : Nat) : List Nat :=
  encodeElement [0xa3]
    ([0x81] ++ [jsShr8 timecode % 2 ^ 8, timecode % 2 ^ 8] ++ [0x80] ++
      vp8Frame)

/-- UTF-8 bytes of the ASCII string `webm` written by `TextEncoder`. -/
def webmBytes : List Nat := [0x77, 0x65, 0x62, 0x6d]

/-- UTF-8 bytes of the ASCII string `AnimArrange` written by `TextEncoder`. -/
def animArrangeBytes : List Nat :=
  [0x41, 0x6e, 0x69, 0x6d, 0x41, 0x72, 0x72, 0x61, 0x6e, 0x67, 0x65]

/-- UTF-8 bytes of the ASCII codec id `V_VP8` written by `TextEncoder`. -/
def vVP8Bytes : List Nat := [0x56, 0x5f, 0x56, 0x50, 0x38]

/-- The `ebml` constant of `createWebM`: the EBML header element. -/
def ebmlHeader : List Nat :=
  encodeElement [0x1a, 0x45, 0xdf, 0xa3]
    (encodeElement [0x42, 0x86] [0x01] ++
     encodeElement [0x42, 0xf7] [0x01] ++
     encodeElement [0x42, 0xf2] [0x04] ++
     encodeElement [0x42, 0xf3] [0x08] ++
     encodeElement [0x42, 0x82] webmBytes ++
     encodeElement [0x42, 0x87] [0x02] ++
     encodeElement [0x42, 0x85] [0x02])

/-- The `segmentInfo` constant of `createWebM`: timecode scale 1000000,
duration `durationMs / 1000` stored as a binary64 double, and the two
application name strings. -/
def segmentInfo (durationMs : Nat) : List Nat :=
  encodeElement [0x15, 0x49, 0xa9, 0x66]
    (encodeElement [0x2a, 0xd7, 0xb1] (uintToArray 1000000 4) ++
     encodeElement [0x44, 0x89] (float64ToArray ((durationMs : ℚ) / 1000)) ++
     encodeElement [0x4d, 0x80] animArrangeBytes ++
     encodeElement [0x57, 0x41] animArrangeBytes)

/-- The nested video-dimensions element of the track entry: pixel width and
pixel height, each stored by `uintToArray(_, 2)`. -/
def videoDims (width height : Nat) : List Nat :=
  encodeElement [0xe0]
    (encodeElement [0xb0] (uintToArray width 2) ++
     encodeElement [0xba] (uintToArray height 2))

/-- The `trackEntry` constant of `createWebM`: track number 1, track uid 1,
lacing off, track type video, codec `V_VP8`, and the video dimensions. -/
def trackEntry (width height : Nat) : List Nat :=
  encodeElement [0xae]
    (encodeElement [0xd7] (uintToArray 1 1) ++
     encodeElement [0x73, 0xc5] (uintToArray 1 1) ++
     encodeElement [0x9c] [0x00] ++
     encodeElement [0x83] [0x01] ++
     encodeElement [0x86] vVP8Bytes ++
     videoDims width height)

/-- The `tracks` constant of `createWebM`. -/
def tracksElement (width height : Nat) : List Nat :=
  encodeElement [0x16, 0x54, 0xae, 0x6b] (trackEntry width height)

/-- The `clusterTimecode` constant of `createWebM`. -/
def clusterTimecode : List Nat :=
  encodeElement [0xe7] (uintToArray 0 2)

/-- The SimpleBlock loop of `createWebM`: push one block per frame, with a
running timecode starting at `timecode` and stepping by `frameDurationMs`. -/
def simpleBlocks : List (List Nat) → Nat → Nat → List (List Nat)
  | [], _, _ => []
  | f :: fs, timecode, frameDurationMs =>
    createSimpleBlock f timecode ::
      simpleBlocks fs (timecode + frameDurationMs) frameDurationMs

/-- The `cluster` constant of `createWebM`: the cluster timecode element
followed by every SimpleBlock, in input order. -/
def cluster (frames : List (List Nat)) (frameDurationMs : Nat) : List Nat :=
  encodeElement [0x1f, 0x43, 0xb6, 0x75]
    (clusterTimecode ++ (simpleBlocks frames 0 frameDurationMs).flatten)

/-- Source `createWebM(frames, frameDurationMs, width, height)`:
`ebml || Segment(segmentInfo || tracks || cluster)` with
`durationMs = frameDurationMs * frames.length`. -/
def createWebM (frames : List (List Nat)) (frameDurationMs width height : Nat) :
    List Nat :=
  ebmlHeader ++
    encodeElement [0x18, 0x53, 0x80, 0x67]
      (segmentInfo (frameDurationMs * frames.length) ++
       tracksElement width height ++ cluster frames frameDurationMs)

/-- `Math.round(1000 / fps)` for a positive integer `fps`: rounding half
up, i.e. `⌊1000 / fps + 1 / 2⌋`.  For integer `fps` the double division
`1000 / fps` only lands on a rounding tie when the rational value is exactly
a tie, so the rational half-up value agrees with the JavaScript result. -/
def frameDuration (fps : Nat) : Nat :=
  (2 * 1000 + fps) / (2 * fps)

/-- Source `fromImageArray(frames, fps, width, height)`: decode every data
URL, extract every VP8 bitstream (propagating the first failure), then build
the WebM document; the returned `Blob` is modelled by its byte contents. -/
def fromImageArray (frames : List (List Char)) (fps width height : Nat) :
    Option (List Nat) :=
  match mapOrNone
      (fun f =>
        match dataURLToUint8Array f with
        | none => none
        | some webp => extractVP8Bitstream webp) frames with
  | none => none
  | some vp8Frames =>
    some (createWebM vp8Frames (frameDuration fps) width height)

/-- Length of an EBML vint read back from its leading byte: the number of
leading zero bits plus one (the inverse of the length-marker convention of
the size codec).  Only meaningful for a nonzero byte below 256. -/
def vintMarkerLen (b0 : Nat) : Nat :=
  if 2 ^ 7 ≤ b0 then 1
  else if 2 ^ 6 ≤ b0 then 2
  else if 2 ^ 5 ≤ b0 then 3
  else if 2 ^ 4 ≤ b0 then 4
  else if 2 ^ 3 ≤ b0 then 5
  else if 2 ^ 2 ≤ b0 then 6
  else if 2 ^ 1 ≤ b0 then 7
  else 8

/-- Inverse of the vint codec, reading from the front of a byte stream:
determine the length from the leading byte, strip the unary length-marker
bit, read the remaining bits big-endian, and return the decoded value with
the unconsumed tail. -/
def readVint : List Nat → Option (Nat × List Nat)
  | [] => none
  | b0 :: rest =>
    if b0 = 0 then none
    else
      if vintMarkerLen b0 - 1 ≤ rest.length then
        some (beVal (b0 - 2 ^ (8 - vintMarkerLen b0))
                (rest.take (vintMarkerLen b0 - 1)),
              rest.drop (vintMarkerLen b0 - 1))
      else none

/-- Parse one SimpleBlock element: its id byte must be `0xa3`, the size
field is decoded by `readVint`, and the payload splits into the track-number
byte, the 16-bit big-endian relative timecode, the flags byte and the frame
bytes. -/
def parseSimpleBlock (b : List Nat) : Option (Nat × Nat × Nat × List Nat) :=
  match b with
  | [] => none
  | idByte :: rest =>
    if idByte = 0xa3 then
      match readVint rest with
      | none => none
      | some sr =>
        match sr.2.take sr.1 with
        | tn :: t0 :: t1 :: fl :: fr => some (tn, t0 * 2 ^ 8 + t1, fl, fr)
        | _ => none
    else none

/-- The 16-bit relative timecode stored in a SimpleBlock (0 when the block
does not parse). -/
def blockTimecode (b : List Nat) : Nat :=
  match parseSimpleBlock b with
  | some r => r.2.1
  | none => 0

/-- Signed reading of a 16-bit stored value. -/
def s16 (v : Nat) : Int :=
  if v < 2 ^ 15 then (v : Int) else (v : Int) - 2 ^ 16

/-- Little-endian 4-byte encoding of a length, as used in the synthetic
RIFF chunk of the extraction property. -/
def leBytes4 (v : Nat) : List Nat :=
  [v % 2 ^ 8, v / 2 ^ 8 % 2 ^ 8, v / 2 ^ 16 % 2 ^ 8, v / 2 ^ 24 % 2 ^ 8]

/-! ### Arithmetic and byte-level helper lemmas -/

theorem lor_two_pow_eq_add : ∀ (k a : Nat), a < 2 ^ k → a ||| 2 ^ k = a + 2 ^ k := by
  intro k
  induction k with
  | zero =>
    intro a ha
    have h0 : a = 0 := by omega
    subst h0
    decide
  | succ k ih =>
    intro a ha
    have hd : Nat.bit (Nat.bodd a) (Nat.div2 a) = a := Nat.bit_decomp a
    have hp : (2 : Nat) ^ (k + 1) = Nat.bit false (2 ^ k) := by
      simp [Nat.bit_val, Nat.pow_succ, Nat.mul_comm]
    have hq : Nat.div2 a < 2 ^ k := by
      rw [Nat.div2_val]
      have h2 : a < 2 ^ k * 2 := by rw [← Nat.pow_succ]; exact ha
      exact (Nat.div_lt_iff_lt_mul (by norm_num)).mpr h2
    have hval : a = 2 * Nat.div2 a + (Nat.bodd a).toNat := by
      conv_lhs => rw [← hd]
      rw [Nat.bit_val]
    conv_lhs => rw [← hd, hp]
    rw [Nat.lor_bit, ih _ hq, Bool.or_false, Nat.bit_val, Nat.pow_succ]
    omega

theorem vintLengthFrom_zero (v l : Nat) : vintLengthFrom v l 0 = l := rfl

theorem vintLengthFrom_succ (v l fuel : Nat) :
    vintLengthFrom v l (fuel + 1) =
      if 2 ^ (7 * l) - 1 ≤ v ∧ l < 8 then vintLengthFrom v (l + 1) fuel else l :=
  rfl

theorem vintLengthFrom_spec : ∀ (fuel l v : Nat), 1 ≤ l → l ≤ 8 →
    v < 2 ^ 56 - 1 → v < 2 ^ (7 * (l + fuel)) - 1 →
    1 ≤ vintLengthFrom v l fuel ∧ vintLengthFrom v l fuel ≤ 8 ∧
      v < 2 ^ (7 * vintLengthFrom v l fuel) - 1 := by
  intro fuel
  induction fuel with
  | zero =>
    intro l v h1 h8 _ hfit
    rw [vintLengthFrom_zero]
    exact ⟨h1, h8, by simpa using hfit⟩
  | succ fuel ih =>
    intro l v h1 h8 h56 hfit
    rw [vintLengthFrom_succ]
    by_cases hc : 2 ^ (7 * l) - 1 ≤ v ∧ l < 8
    · rw [if_pos hc]
      refine ih (l + 1) v (by omega) (by omega) h56 ?_
      have harr : l + 1 + fuel = l + (fuel + 1) := by omega
      rw [harr]
      exact hfit
    · rw [if_neg hc]
      refine ⟨h1, h8, ?_⟩
      rcases Nat.lt_or_ge v (2 ^ (7 * l) - 1) with h | h
      · exact h
      · have hl : l = 8 := by
          rcases Decidable.not_and_iff_or_not.mp hc with h2 | h2
          · omega
          · omega
        subst hl
        have h56e : (2 : Nat) ^ 56 - 1 = 2 ^ (7 * 8) - 1 := by norm_num
        rw [← h56e] at *
        exact h56

theorem vintLength_spec (v : Nat) (hv : v < 2 ^ 31) :
    1 ≤ vintLength v ∧ vintLength v ≤ 8 ∧ v < 2 ^ (7 * vintLength v) - 1 := by
  refine vintLengthFrom_spec 8 1 v (by norm_num) (by norm_num) ?_ ?_
  · norm_num at hv ⊢
    omega
  · norm_num at hv ⊢
    omega

theorem jsShr8_small {v : Nat} (hv : v < 2 ^ 31) : jsShr8 v = v / 2 ^ 8 := by
  unfold jsShr8
  have hm : v % 2 ^ 32 = v := Nat.mod_eq_of_lt (by norm_num at hv ⊢; omega)
  rw [hm, if_pos hv]

theorem jsBytesBE_eq_beBytes : ∀ (k v : Nat), v < 2 ^ 31 →
    jsBytesBE k v = beBytes k v := by
  intro k
  induction k with
  | zero => intro v _; rfl
  | succ k ih =>
    intro v hv
    show jsBytesBE k (jsShr8 v) ++ [v % 2 ^ 8] = beBytes k (v / 2 ^ 8) ++ [v % 2 ^ 8]
    rw [jsShr8_small hv, ih _ (lt_of_le_of_lt (Nat.div_le_self _ _) hv)]

theorem beBytes_length : ∀ (k v : Nat), (beBytes k v).length = k := by
  intro k
  induction k with
  | zero => intro v; rfl
  | succ k ih =>
    intro v
    show (beBytes k (v / 2 ^ 8) ++ [v % 2 ^ 8]).length = k + 1
    rw [List.length_append, ih]
    rfl

theorem beBytes_cons : ∀ (k v : Nat),
    beBytes (k + 1) v = (v / 2 ^ (8 * k) % 2 ^ 8) :: beBytes k (v % 2 ^ (8 * k)) := by
  intro k
  induction k with
  | zero => intro v; simp [beBytes]
  | succ k ih =>
    intro v
    have hexp : 8 * (k + 1) = 8 + 8 * k := by ring
    have hsplit : (2 : Nat) ^ (8 * (k + 1)) = 2 ^ 8 * 2 ^ (8 * k) := by
      rw [hexp, pow_add]
    have h1 : v / 2 ^ 8 / 2 ^ (8 * k) = v / 2 ^ (8 * (k + 1)) := by
      rw [Nat.div_div_eq_div_mul, ← pow_add, ← hexp]
    have h2 : v % 2 ^ (8 * (k + 1)) / 2 ^ 8 = v / 2 ^ 8 % 2 ^ (8 * k) := by
      rw [hsplit, Nat.mod_mul_right_div_self]
    have h3 : v % 2 ^ (8 * (k + 1)) % 2 ^ 8 = v % 2 ^ 8 :=
      Nat.mod_mod_of_dvd v (by rw [hsplit]; exact Dvd.intro _ rfl)
    show beBytes (k + 1) (v / 2 ^ 8) ++ [v % 2 ^ 8] = _
    rw [ih (v / 2 ^ 8)]
    show (v / 2 ^ 8 / 2 ^ (8 * k) % 2 ^ 8) ::
        (beBytes k (v / 2 ^ 8 % 2 ^ (8 * k)) ++ [v % 2 ^ 8]) = _
    rw [h1]
    show _ = (v / 2 ^ (8 * (k + 1)) % 2 ^ 8) ::
        (beBytes k (v % 2 ^ (8 * (k + 1)) / 2 ^ 8) ++ [v % 2 ^ (8 * (k + 1)) % 2 ^ 8])
    rw [h2, h3]

theorem beVal_beBytes : ∀ (k acc v : Nat),
    beVal acc (beBytes k v) = acc * 2 ^ (8 * k) + v % 2 ^ (8 * k) := by
  intro k
  induction k with
  | zero =>
    intro acc v
    simp [beVal, beBytes, Nat.mod_one]
  | succ k ih =>
    intro acc v
    have hexp : 8 * (k + 1) = 8 + 8 * k := by ring
    have hsplit : (2 : Nat) ^ (8 * (k + 1)) = 2 ^ 8 * 2 ^ (8 * k) := by
      rw [hexp, pow_add]
    have h2 : v % 2 ^ (8 * (k + 1)) / 2 ^ 8 = v / 2 ^ 8 % 2 ^ (8 * k) := by
      rw [hsplit, Nat.mod_mul_right_div_self]
    have h3 : v % 2 ^ (8 * (k + 1)) % 2 ^ 8 = v % 2 ^ 8 :=
      Nat.mod_mod_of_dvd v (by rw [hsplit]; exact Dvd.intro _ rfl)
    have hdecomp : v % 2 ^ (8 * (k + 1)) =
        2 ^ 8 * (v / 2 ^ 8 % 2 ^ (8 * k)) + v % 2 ^ 8 := by
      conv_lhs => rw [← Nat.div_add_mod (v % 2 ^ (8 * (k + 1))) (2 ^ 8)]
      rw [h2, h3]
    show beVal acc (beBytes k (v / 2 ^ 8) ++ [v % 2 ^ 8]) = _
    unfold beVal
    rw [List.foldl_append]
    have hfold : List.foldl (fun a b => a * 2 ^ 8 + b) acc (beBytes k (v / 2 ^ 8)) =
        acc * 2 ^ (8 * k) + v / 2 ^ 8 % 2 ^ (8 * k) := ih acc (v / 2 ^ 8)
    rw [hfold]
    show (acc * 2 ^ (8 * k) + v / 2 ^ 8 % 2 ^ (8 * k)) * 2 ^ 8 + v % 2 ^ 8 = _
    rw [hdecomp, hsplit]
    ring

theorem vintMarkerLen_eq (L h0 : Nat) (h1 : 1 ≤ L) (h8 : L ≤ 8)
    (hh : h0 < 2 ^ (8 - L)) : vintMarkerLen (h0 + 2 ^ (8 - L)) = L := by
  have hL : L = 1 ∨ L = 2 ∨ L = 3 ∨ L = 4 ∨ L = 5 ∨ L = 6 ∨ L = 7 ∨ L = 8 := by
    omega
  rcases hL with rfl | rfl | rfl | rfl | rfl | rfl | rfl | rfl <;>
    (norm_num at hh; simp only [vintMarkerLen];
      norm_num <;> first | omega | (split_ifs <;> omega))

theorem readVint_cons (b0 : Nat) (rest : List Nat) (hb : b0 ≠ 0)
    (hlen : vintMarkerLen b0 - 1 ≤ rest.length) :
    readVint (b0 :: rest) =
      some (beVal (b0 - 2 ^ (8 - vintMarkerLen b0))
              (rest.take (vintMarkerLen b0 - 1)),
            rest.drop (vintMarkerLen b0 - 1)) := by
  simp [readVint, hb, hlen]

theorem take_append_len {α : Type} (l1 l2 : List α) (k : Nat)
    (h : l1.length = k) : (l1 ++ l2).take k = l1 := by
  subst h
  exact List.take_left l1 l2

theorem drop_append_len {α : Type} (l1 l2 : List α) (k : Nat)
    (h : l1.length = k) : (l1 ++ l2).drop k = l2 := by
  subst h
  exact List.drop_left l1 l2

theorem readVint_encodeVint (n : Nat) (hn : n < 2 ^ 31) (tail : List Nat) :
    readVint (encodeVint n ++ tail) = some (n, tail) := by
  obtain ⟨hL1, hL8, hfit⟩ := vintLength_spec n hn
  obtain ⟨K, hK⟩ : ∃ K, vintLength n = K + 1 := ⟨vintLength n - 1, by omega⟩
  have hbytes : jsBytesBE (vintLength n) n = beBytes (vintLength n) n :=
    jsBytesBE_eq_beBytes _ n hn
  have hcons : beBytes (vintLength n) n =
      (n / 2 ^ (8 * K) % 2 ^ 8) :: beBytes K (n % 2 ^ (8 * K)) := by
    rw [hK]; exact beBytes_cons K n
  have hfit2 : n < 2 ^ (7 * vintLength n) := lt_of_lt_of_le hfit (Nat.sub_le _ _)
  have hdivlt : n / 2 ^ (8 * K) < 2 ^ (8 - vintLength n) := by
    apply Nat.div_lt_of_lt_mul
    calc n < 2 ^ (7 * vintLength n) := hfit2
      _ ≤ 2 ^ (8 * K) * 2 ^ (8 - vintLength n) := by
          rw [← pow_add]
          exact Nat.pow_le_pow_right (by norm_num) (by omega)
  have hmod : n / 2 ^ (8 * K) % 2 ^ 8 = n / 2 ^ (8 * K) :=
    Nat.mod_eq_of_lt
      (lt_of_lt_of_le hdivlt (Nat.pow_le_pow_right (by norm_num) (by omega)))
  have hshift : (1 : Nat) <<< (8 - vintLength n) = 2 ^ (8 - vintLength n) := by
    rw [Nat.shiftLeft_eq, one_mul]
  have henc : encodeVint n =
      (n / 2 ^ (8 * K) + 2 ^ (8 - vintLength n)) ::
        beBytes K (n % 2 ^ (8 * K)) := by
    unfold encodeVint
    rw [hbytes, hcons]
    show (n / 2 ^ (8 * K) % 2 ^ 8 ||| 1 <<< (8 - vintLength n)) ::
        beBytes K (n % 2 ^ (8 * K)) = _
    rw [hmod, hshift, lor_two_pow_eq_add (8 - vintLength n) _ hdivlt]
  have hb0 : n / 2 ^ (8 * K) + 2 ^ (8 - vintLength n) ≠ 0 := by
    have hp : 0 < (2 : Nat) ^ (8 - vintLength n) := Nat.two_pow_pos _
    omega
  have htlen : (beBytes K (n % 2 ^ (8 * K)) ++ tail).length =
      K + tail.length := by
    rw [List.length_append, beBytes_length]
  have hmlen : vintMarkerLen (n / 2 ^ (8 * K) + 2 ^ (8 - vintLength n)) =
      vintLength n :=
    vintMarkerLen_eq (vintLength n) _ hL1 hL8 hdivlt
  rw [henc, List.cons_append, readVint_cons _ _ hb0 (by rw [hmlen, htlen]; omega)]
  rw [hmlen, hK]
  simp only [Nat.add_sub_cancel]
  rw [take_append_len _ _ _ (beBytes_length K _),
      drop_append_len _ _ _ (beBytes_length K _)]
  rw [beVal_beBytes]
  rw [Nat.mod_mod_of_dvd _ dvd_rfl]
  rw [Nat.div_add_mod']

theorem jsShr8_mod256 (v : Nat) : jsShr8 v % 2 ^ 8 = v / 2 ^ 8 % 2 ^ 8 := by
  unfold jsShr8
  have hsplit : (2 : Nat) ^ 32 = 2 ^ 8 * 2 ^ 24 := by norm_num
  have h1 : v % 2 ^ 32 / 2 ^ 8 = v / 2 ^ 8 % 2 ^ 24 := by
    rw [hsplit, Nat.mod_mul_right_div_self]
  have h2 : v / 2 ^ 8 % 2 ^ 24 % 2 ^ 8 = v / 2 ^ 8 % 2 ^ 8 :=
    Nat.mod_mod_of_dvd _ (by norm_num)
  split_ifs with h
  · rw [h1, h2]
  · have hc : (0xFF000000 : Nat) = 2 ^ 8 * 16711680 := by norm_num
    rw [hc, Nat.add_mul_mod_self_left, h1, h2]

theorem simpleBlocks_getD : ∀ (frames : List (List Nat)) (t d k : Nat),
    k < frames.length →
    (simpleBlocks frames t d).getD k [] =
      createSimpleBlock (frames.getD k []) (t + k * d) := by
  intro frames
  induction frames with
  | nil =>
    intro t d k hk
    simp at hk
  | cons f fs ih =>
    intro t d k hk
    cases k with
    | zero => simp [simpleBlocks]
    | succ k =>
      have hstep : (simpleBlocks (f :: fs) t d).getD (k + 1) [] =
          (simpleBlocks fs (t + d) d).getD k [] := rfl
      have hget : (f :: fs).getD (k + 1) [] = fs.getD k [] := rfl
      rw [hstep, hget, ih (t + d) d k (by simpa using hk)]
      have harith : t + d + k * d = t + (k + 1) * d := by ring
      rw [harith]

theorem parseSimpleBlock_createSimpleBlock (f : List Nat) (t : Nat)
    (hf : f.length + 4 < 2 ^ 31) :
    parseSimpleBlock (createSimpleBlock f t) =
      some (0x81, jsShr8 t % 2 ^ 8 * 2 ^ 8 + t % 2 ^ 8, 0x80, f) := by
  have hpay : ([0x81] ++ [jsShr8 t % 2 ^ 8, t % 2 ^ 8] ++ [0x80] ++ f) =
      0x81 :: jsShr8 t % 2 ^ 8 :: t % 2 ^ 8 :: 0x80 :: f := by
    simp
  have hlen : ((0x81 : Nat) :: jsShr8 t % 2 ^ 8 :: t % 2 ^ 8 :: 0x80 :: f).length
      = f.length + 4 := by
    simp only [List.length_cons]
  have h1 : createSimpleBlock f t =
      0xa3 :: (encodeVint (f.length + 4) ++
        (0x81 :: jsShr8 t % 2 ^ 8 :: t % 2 ^ 8 :: 0x80 :: f)) := by
    unfold createSimpleBlock encodeElement
    rw [hpay, hlen, List.append_assoc, List.singleton_append]
  rw [h1]
  simp only [parseSimpleBlock, if_true]
  rw [readVint_encodeVint _ (by omega)]
  simp [List.take_of_length_le (le_of_eq hlen)]

theorem parseSimpleBlock_createSimpleBlock_small (f : List Nat) (t : Nat)
    (hf : f.length + 4 < 2 ^ 31) (ht : t ≤ 32767) :
    parseSimpleBlock (createSimpleBlock f t) = some (0x81, t, 0x80, f) := by
  rw [parseSimpleBlock_createSimpleBlock f t hf]
  have ht31 : t < 2 ^ 31 := by norm_num; omega
  rw [jsShr8_small ht31]
  have h3 : t / 2 ^ 8 % 2 ^ 8 = t / 2 ^ 8 := Nat.mod_eq_of_lt (by norm_num; omega)
  rw [h3]
  have h4 : t / 2 ^ 8 * 2 ^ 8 + t % 2 ^ 8 = t := by norm_num; omega
  rw [h4]

theorem blockTimecode_createSimpleBlock (f : List Nat) (t : Nat)
    (hf : f.length + 4 < 2 ^ 31) (ht : t ≤ 32767) :
    blockTimecode (createSimpleBlock f t) = t := by
  unfold blockTimecode
  rw [parseSimpleBlock_createSimpleBlock_small f t hf ht]

theorem mapOrNone_eq_none {α β : Type} (g : α → Option β) :
    ∀ (l : List α) (a : α), a ∈ l → g a = none → mapOrNone g l = none := by
  intro l
  induction l with
  | nil =>
    intro a ha
    simp at ha
  | cons x xs ih =>
    intro a ha hg
    rcases List.mem_cons.mp ha with rfl | ha2
    · show (match g a with
        | none => none
        | some b =>
          match mapOrNone g xs with
          | none => none
          | some bs => some (b :: bs)) = none
      rw [hg]
    · cases hgx : g x with
      | none => simp [mapOrNone, hgx]
      | some b => simp [mapOrNone, hgx, ih a ha2 hg]

theorem sigAt_iff_slice (w : List Nat) (i : Nat) (h : i + 4 ≤ w.length) :
    sigAt w i = true ↔ (w.drop i).take 4 = [0x56, 0x50, 0x38, 0x20] := by
  have h0 : i < w.length := by omega
  have h1 : i + 1 < w.length := by omega
  have h2 : i + 2 < w.length := by omega
  have h3 : i + 3 < w.length := by omega
  have hd : w.drop i = w[i] :: w[i + 1] :: w[i + 2] :: w[i + 3] :: w.drop (i + 4) :=
    calc w.drop i = w[i] :: w.drop (i + 1) := List.drop_eq_getElem_cons h0
      _ = w[i] :: w[i + 1] :: w.drop (i + 2) := by
          rw [List.drop_eq_getElem_cons h1]
      _ = w[i] :: w[i + 1] :: w[i + 2] :: w.drop (i + 3) := by
          rw [List.drop_eq_getElem_cons h2]
      _ = w[i] :: w[i + 1] :: w[i + 2] :: w[i + 3] :: w.drop (i + 4) := by
          rw [List.drop_eq_getElem_cons h3]
  have g0 : w.getD i 0 = w[i] := List.getD_eq_getElem w 0 h0
  have g1 : w.getD (i + 1) 0 = w[i + 1] := List.getD_eq_getElem w 0 h1
  have g2 : w.getD (i + 2) 0 = w[i + 2] := List.getD_eq_getElem w 0 h2
  have g3 : w.getD (i + 3) 0 = w[i + 3] := List.getD_eq_getElem w 0 h3
  rw [hd]
  show sigAt w i = true ↔
    w[i] :: (w[i + 1] :: w[i + 2] :: w[i + 3] :: List.drop (i + 4) w).take 3 =
      [0x56, 0x50, 0x38, 0x20]
  show sigAt w i = true ↔
    [w[i], w[i + 1], w[i + 2], w[i + 3]] = [0x56, 0x50, 0x38, 0x20]
  unfold sigAt
  rw [g0, g1, g2, g3]
  simp only [Bool.and_eq_true, beq_iff_eq, List.cons.injEq, and_true]
  tauto

theorem extract_isNone_iff (w : List Nat) :
    extractVP8Bitstream w = none ↔
      ∀ i, i + 10 ≤ w.length →
        (w.drop i).take 4 ≠ [0x56, 0x50, 0x38, 0x20] := by
  unfold extractVP8Bitstream
  split_ifs with hw
  · cases hf : (List.range (w.length - 9)).find? (fun i => sigAt w i) with
    | none =>
      simp only [hf]
      constructor
      · intro _ i hi hslice
        have hmem : i ∈ List.range (w.length - 9) := List.mem_range.mpr (by omega)
        have hno := List.find?_eq_none.mp hf i hmem
        exact hno ((sigAt_iff_slice w i (by omega)).mpr hslice)
      · intro _
        trivial
    | some j =>
      simp only [hf]
      have hj : sigAt w j = true := List.find?_some hf
      have hjmem : j ∈ List.range (w.length - 9) := List.mem_of_find?_eq_some hf
      have hjlt : j < w.length - 9 := List.mem_range.mp hjmem
      constructor
      · intro habs
        exact absurd habs (by simp)
      · intro hall
        exact absurd ((sigAt_iff_slice w j (by omega)).mp hj)
          (hall j (by omega))
  · constructor
    · intro _ i hi
      omega
    · intro _
      trivial

theorem jsSubarray_suffix (x y : List Nat) (k sz : Nat) (hk : x.length = k)
    (hsz : y.length = sz) :
    jsSubarray (x ++ y) (k : Int) ((k : Int) + (sz : Int)) = y := by
  simp only [jsSubarray]
  have hn : (((x ++ y).length : Nat) : Int) = (k : Int) + (sz : Int) := by
    rw [List.length_append, hk, hsz]
    push_cast
    ring
  rw [hn]
  rw [if_neg (by omega), if_neg (by omega)]
  rw [min_eq_left (by omega), min_eq_left (by omega), add_sub_cancel_left]
  rw [Int.toNat_natCast, Int.toNat_natCast]
  rw [drop_append_len x y k hk]
  exact List.take_of_length_le (le_of_eq hsz)

theorem extract_synthetic (junk p : List Nat) (L : Nat)
    (hjunk : junk.length = 13)
    (hnosig : ∀ i, i < 10 → (junk.drop i).take 4 ≠ [0x56, 0x50, 0x38, 0x20])
    (hp : p.length = L) (hL2 : 2 ≤ L) (hL31 : L < 2 ^ 31) :
    extractVP8Bitstream
      (junk ++ [0x56, 0x50, 0x38, 0x20] ++ leBytes4 L ++ p) = some p := by
  have hchain : junk ++ [0x56, 0x50, 0x38, 0x20] ++ leBytes4 L ++ p =
      junk ++ (0x56 :: 0x50 :: 0x38 :: 0x20 :: L % 2 ^ 8 :: L / 2 ^ 8 % 2 ^ 8 ::
        L / 2 ^ 16 % 2 ^ 8 :: L / 2 ^ 24 % 2 ^ 8 :: p) := by
    simp [leBytes4]
  rw [hchain]
  set B := junk ++ (0x56 :: 0x50 :: 0x38 :: 0x20 :: L % 2 ^ 8 ::
    L / 2 ^ 8 % 2 ^ 8 :: L / 2 ^ 16 % 2 ^ 8 :: L / 2 ^ 24 % 2 ^ 8 :: p)
    with hB
  have hchl : (0x56 :: 0x50 :: 0x38 :: 0x20 :: L % 2 ^ 8 :: L / 2 ^ 8 % 2 ^ 8 ::
      L / 2 ^ 16 % 2 ^ 8 :: L / 2 ^ 24 % 2 ^ 8 :: p).length = 8 + L := by
    simp only [List.length_cons, hp]
    omega
  have hblen : B.length = 21 + L := by
    rw [hB, List.length_append, hjunk, hchl]
    omega
  have h13 : B.getD 13 0 = 0x56 := by
    rw [hB, List.getD_append_right _ _ _ _ (by omega)]
    simp [hjunk]
  have hsig13 : sigAt B 13 = true := by
    refine (sigAt_iff_slice B 13 (by omega)).mpr ?_
    rw [hB, drop_append_len _ _ 13 hjunk]
    rfl
  have hnone : ∀ i, i < 13 → sigAt B i = false := by
    intro i hi
    by_cases hc : i ≤ 9
    · cases hsb : sigAt B i with
      | false => rfl
      | true =>
        exfalso
        have hl : i + 4 ≤ B.length := by omega
        have hslice := (sigAt_iff_slice B i hl).mp hsb
        rw [hB, List.drop_append_of_le_length (by omega),
          List.take_append_of_le_length (by rw [List.length_drop, hjunk]; omega)]
          at hslice
        exact hnosig i (by omega) hslice
    · have h10 : i = 10 ∨ i = 11 ∨ i = 12 := by omega
      rcases h10 with rfl | rfl | rfl
      · show (B.getD 10 0 == 0x56 && B.getD 11 0 == 0x50 &&
            B.getD 12 0 == 0x38 && B.getD 13 0 == 0x20) = false
        rw [h13]
        simp
      · show (B.getD 11 0 == 0x56 && B.getD 12 0 == 0x50 &&
            B.getD 13 0 == 0x38 && B.getD 14 0 == 0x20) = false
        rw [h13]
        simp
      · show (B.getD 12 0 == 0x56 && B.getD 13 0 == 0x50 &&
            B.getD 14 0 == 0x38 && B.getD 15 0 == 0x20) = false
        rw [h13]
        simp
  have hfind : (List.range (B.length - 9)).find? (fun i => sigAt B i) =
      some 13 := by
    rw [hblen, show 21 + L - 9 = 13 + (L - 1) from by omega,
      List.range_add 13 (L - 1), List.find?_append]
    have hnone13 : (List.range 13).find? (fun i => sigAt B i) = none :=
      List.find?_eq_none.mpr (fun i hi => by
        simp [hnone i (List.mem_range.mp hi)])
    rw [hnone13, Option.none_or]
    obtain ⟨M, hM⟩ : ∃ M, L - 1 = M + 1 := ⟨L - 2, by omega⟩
    rw [hM, List.range_succ_eq_map, List.map_cons]
    have hpos : (fun i => sigAt B i) (13 + 0) = true := by simpa using hsig13
    rw [List.find?_cons_of_pos _ hpos]
  have h17 : B.getD (13 + 4) 0 = L % 2 ^ 8 := by
    rw [hB, List.getD_append_right _ _ _ _ (by omega)]
    simp [hjunk]
  have h18 : B.getD (13 + 5) 0 = L / 2 ^ 8 % 2 ^ 8 := by
    rw [hB, List.getD_append_right _ _ _ _ (by omega)]
    simp [hjunk]
  have h19 : B.getD (13 + 6) 0 = L / 2 ^ 16 % 2 ^ 8 := by
    rw [hB, List.getD_append_right _ _ _ _ (by omega)]
    simp [hjunk]
  have h20 : B.getD (13 + 7) 0 = L / 2 ^ 24 % 2 ^ 8 := by
    rw [hB, List.getD_append_right _ _ _ _ (by omega)]
    simp [hjunk]
  unfold extractVP8Bitstream
  rw [if_pos (by omega)]
  simp only [hfind]
  rw [h17, h18, h19, h20]
  have hsum : L % 2 ^ 8 + L / 2 ^ 8 % 2 ^ 8 * 2 ^ 8 + L / 2 ^ 16 % 2 ^ 8 * 2 ^ 16 +
      L / 2 ^ 24 % 2 ^ 8 * 2 ^ 24 = L := by
    norm_num
    omega
  rw [hsum]
  have hjs : jsInt32 L = (L : Int) := by
    unfold jsInt32
    rw [Nat.mod_eq_of_lt (by norm_num at hL31 ⊢; omega), if_pos hL31]
  rw [hjs]
  have hassoc : B = (junk ++ [0x56, 0x50, 0x38, 0x20, L % 2 ^ 8,
      L / 2 ^ 8 % 2 ^ 8, L / 2 ^ 16 % 2 ^ 8, L / 2 ^ 24 % 2 ^ 8]) ++ p := by
    rw [hB]
    simp
  have hx : (junk ++ [0x56, 0x50, 0x38, 0x20, L % 2 ^ 8, L / 2 ^ 8 % 2 ^ 8,
      L / 2 ^ 16 % 2 ^ 8, L / 2 ^ 24 % 2 ^ 8]).length = 21 := by
    simp [hjunk]
  rw [hassoc, show (13 + 8 : Nat) = 21 from rfl]
  exact congrArg some (jsSubarray_suffix _ p 21 L hx hp)

/-! ### Claim C1 -/

/-- C1 counterexample: for a payload of 2^31 bytes the size field embedded by
`encodeElement` reads back as 127, not 2^31 — the JavaScript 32-bit coercion
in the vint byte loop corrupts the length field, so the master length
invariant fails for payloads of 2^31 bytes or more. -/
theorem c1_size_field_overflow :
    (readVint ((encodeElement [0xa3] (List.replicate (2 ^ 31) 0)).drop 1)).map
        (fun r => r.1) = some 127 ∧
      (127 : Nat) ≠ (List.replicate (2 ^ 31) (0 : Nat)).length := by
  constructor
  · have hlen : (List.replicate (2 ^ 31) (0 : Nat)).length = 2 ^ 31 :=
      List.length_replicate (2 ^ 31) 0
    have henc : encodeVint (2 ^ 31) = [255, 128, 0, 0, 0] := by decide
    unfold encodeElement
    rw [hlen, henc]
    have hd : (([0xa3] ++ [255, 128, 0, 0, 0] ++
        List.replicate (2 ^ 31) (0 : Nat)).drop 1) =
        255 :: ([128, 0, 0, 0] ++ List.replicate (2 ^ 31) 0) := by
      rw [List.append_assoc, List.singleton_append, List.drop_succ_cons,
        List.drop_zero, List.cons_append]
    rw [hd]
    have hgen : ∀ rest : List Nat,
        (readVint (255 :: rest)).map (fun r => r.1) = some 127 := by
      intro rest
      rw [readVint_cons 255 rest (by norm_num) (by simp [vintMarkerLen])]
      simp [vintMarkerLen, beVal]
    exact hgen _
  · rw [List.length_replicate]
    decide

/-- C1 (amended): for every EBML id and every payload of fewer than 2^31
bytes, `encodeElement(id, data)` returns exactly
`id || encodeVint(len(data)) || data`, its total length is
`len(id) + len(encodeVint(len(data))) + len(data)`, and decoding the
embedded size field with the inverse of the vint codec recovers exactly
`len(data)` with the bytes following the size field equal to `data`.
(For payloads of 2^31 bytes or more the structural equation still holds but
the size field is corrupted by the JavaScript 32-bit coercion.) -/
theorem c1_element_framing (id data : List Nat) (h : data.length < 2 ^ 31) :
    encodeElement id data = id ++ encodeVint data.length ++ data ∧
      (encodeElement id data).length =
        id.length + (encodeVint data.length).length + data.length ∧
      readVint ((encodeElement id data).drop id.length) =
        some (data.length, data) := by
  refine ⟨rfl, ?_, ?_⟩
  · unfold encodeElement
    simp [List.length_append]
    omega
  · unfold encodeElement
    rw [List.append_assoc, List.drop_left]
    exact readVint_encodeVint data.length h data

/-- C1 witness: the framing theorem evaluated at id `0x1a` and payload
`[5, 6, 7]`. -/
theorem c1_element_framing_witness :
    encodeElement [0x1a] [5, 6, 7] =
        [0x1a] ++ encodeVint ([5, 6, 7] : List Nat).length ++ [5, 6, 7] ∧
      (encodeElement [0x1a] [5, 6, 7]).length =
        ([0x1a] : List Nat).length +
          (encodeVint ([5, 6, 7] : List Nat).length).length +
          ([5, 6, 7] : List Nat).length ∧
      readVint ((encodeElement [0x1a] [5, 6, 7]).drop
          ([0x1a] : List Nat).length) =
        some (([5, 6, 7] : List Nat).length, [5, 6, 7]) :=
  c1_element_framing [0x1a] [5, 6, 7] (by decide)

/-! ### Claim C2 -/

/-- C2 counterexample: `encodeVint (2^31)` is `[255, 128, 0, 0, 0]`
(the JavaScript 32-bit sign-extending shift corrupts every byte above the
lowest), and decoding it yields 127, not 2^31, so the round trip fails for
some non-negative integers. -/
theorem c2_vint_overflow :
    encodeVint (2 ^ 31) = [255, 128, 0, 0, 0] ∧
      readVint (encodeVint (2 ^ 31)) = some (127, [128, 0, 0, 0]) ∧
      (127 : Nat) ≠ 2 ^ 31 := by
  refine ⟨by decide, by decide, by decide⟩

/-- C2 (amended): for every `n < 2^31` (which covers every boundary value
0, 1, 126, 127, 128, 16383, 16384, 2000000), decoding the vint produced by
`encodeVint n` — stripping the unary length marker from the leading byte and
reading the remaining bits big-endian — yields exactly `n` with no bytes
left over; in particular `encodeVint 0 = [0x80]`.  (For `n ≥ 2^31` the
JavaScript 32-bit coercion corrupts the encoding.) -/
theorem c2_vint_roundtrip (n : Nat) (h : n < 2 ^ 31) :
    readVint (encodeVint n) = some (n, []) ∧ encodeVint 0 = [0x80] := by
  refine ⟨?_, by decide⟩
  have hr := readVint_encodeVint n h []
  simpa using hr

/-- C2 witness: the round trip evaluated at the boundary value 16384. -/
theorem c2_vint_roundtrip_witness :
    readVint (encodeVint 16384) = some (16384, []) ∧ encodeVint 0 = [0x80] :=
  c2_vint_roundtrip 16384 (by decide)

/-! ### Claim C3 -/

/-- C3 counterexample: at `fps = 3` the entry point computes
`frameDurationMs = round(1000/3) = 333` and the fourth SimpleBlock (k = 3)
stores timecode `3 * 333 = 999`, while the claim demands
`round(3 * 1000 / 3) = 1000`: the code multiplies the rounded duration
instead of rounding the product. -/
theorem c3_timecode_rounding_gap :
    frameDuration 3 = 333 ∧
      blockTimecode
        ((simpleBlocks (List.replicate 4 [0]) 0 (frameDuration 3)).getD 3 []) =
        999 ∧
      (2 * (3 * 1000) + 3) / (2 * 3) = 1000 ∧ (999 : Nat) ≠ 1000 := by
  refine ⟨by decide, by decide, by decide, by decide⟩

/-- C3 (amended): for frames muxed at a positive integer fps, the `k`-th
SimpleBlock stores the relative timecode `k * round(1000 / fps)` (the entry
point computes `frameDurationMs = round(1000 / fps)` once and accumulates
it), exact whenever that value fits the 16-bit field and the frame is small
enough for its size vint to be well formed. -/
theorem c3_timecode_formula (frames : List (List Nat)) (fps k : Nat)
    (hfps : 1 ≤ fps) (hk : k < frames.length)
    (hsz : (frames.getD k []).length + 4 < 2 ^ 31)
    (htc : k * frameDuration fps ≤ 32767) :
    parseSimpleBlock ((simpleBlocks frames 0 (frameDuration fps)).getD k []) =
      some (0x81, k * frameDuration fps, 0x80, frames.getD k []) := by
  rw [simpleBlocks_getD frames 0 (frameDuration fps) k hk, Nat.zero_add]
  exact parseSimpleBlock_createSimpleBlock_small _ _ hsz htc

/-- C3 witness: two one-byte frames at fps 10; the second block stores
timecode `1 * 100 = 100`. -/
theorem c3_timecode_formula_witness :
    parseSimpleBlock
        ((simpleBlocks [[1], [2]] 0 (frameDuration 10)).getD 1 []) =
      some (0x81, 1 * frameDuration 10, 0x80,
        ([[1], [2]] : List (List Nat)).getD 1 []) :=
  c3_timecode_formula [[1], [2]] 10 1 (by decide) (by decide) (by decide)
    (by decide)

/-! ### Claim C4 -/

/-- C4 counterexample: with payload length 0 the synthetic buffer has 21
bytes, the scan bound `length - 10 = 11` stops before offset 13 where the
signature sits, and the extractor throws instead of returning the empty
payload (the same happens for length 1). -/
theorem c4_small_payload_missed :
    extractVP8Bitstream (List.replicate 13 0 ++ [0x56, 0x50, 0x38, 0x20] ++
        leBytes4 0 ++ []) = none ∧
      (none : Option (List Nat)) ≠ some [] := by
  refine ⟨by decide, by decide⟩

/-- C4 (amended): for every payload length `2 ≤ L < 2^31` and payload `p` of
length `L`, the extractor applied to
`<13 signature-free bytes> ++ "VP8 " ++ <4-byte little-endian L> ++ p`
returns exactly `p` (the slice starting 8 bytes after the signature match,
of the declared length).  For `L < 2` the scan bound `length - 10` stops
short of the signature and the extractor fails instead. -/
theorem c4_extract_synthetic (junk p : List Nat) (L : Nat)
    (hjunk : junk.length = 13)
    (hnosig : ∀ i, i < 10 → (junk.drop i).take 4 ≠ [0x56, 0x50, 0x38, 0x20])
    (hp : p.length = L) (hL2 : 2 ≤ L) (hL31 : L < 2 ^ 31) :
    extractVP8Bitstream
      (junk ++ [0x56, 0x50, 0x38, 0x20] ++ leBytes4 L ++ p) = some p :=
  extract_synthetic junk p L hjunk hnosig hp hL2 hL31

/-- C4 witness: the synthetic extraction evaluated with 13 zero bytes of
header and the 2-byte payload `[7, 9]`. -/
theorem c4_extract_synthetic_witness :
    extractVP8Bitstream (List.replicate 13 0 ++ [0x56, 0x50, 0x38, 0x20] ++
      leBytes4 2 ++ [7, 9]) = some [7, 9] :=
  c4_extract_synthetic (List.replicate 13 0) [7, 9] 2 (by decide) (by decide)
    (by decide) (by decide) (by decide)

/-! ### Claim C5 -/

/-- C5: the extractor raises its format error exactly when the signature
`VP8 ` occurs at no offset `i ≤ length - 10`; whenever the signature does
occur in the scan range, a bitstream is returned and no error is raised. -/
theorem c5_extract_error_iff (w : List Nat) :
    extractVP8Bitstream w = none ↔
      ∀ i, i + 10 ≤ w.length →
        (w.drop i).take 4 ≠ [0x56, 0x50, 0x38, 0x20] :=
  extract_isNone_iff w

/-- C5 witness: the error characterisation evaluated on a concrete
signature-free buffer. -/
theorem c5_extract_error_iff_witness :
    extractVP8Bitstream (List.replicate 12 7) = none ↔
      ∀ i, i + 10 ≤ (List.replicate 12 (7 : Nat)).length →
        ((List.replicate 12 (7 : Nat)).drop i).take 4 ≠
          [0x56, 0x50, 0x38, 0x20] :=
  c5_extract_error_iff (List.replicate 12 7)

/-! ### Claim C6 -/

/-- C6: if bitstream extraction fails for any frame of the input sequence,
the entry point propagates the error and produces no output at all,
regardless of the failing frame's position. -/
theorem c6_abort_on_failure (frames : List (List Char))
    (fps width height k : Nat) (hk : k < frames.length) (webp : List Nat)
    (hdec : dataURLToUint8Array (frames.getD k []) = some webp)
    (hfail : extractVP8Bitstream webp = none) :
    fromImageArray frames fps width height = none := by
  unfold fromImageArray
  have hmem : frames.getD k [] ∈ frames := by
    rw [List.getD_eq_getElem frames [] hk]
    exact List.getElem_mem hk
  have hg : (fun f =>
      match dataURLToUint8Array f with
      | none => none
      | some webp => extractVP8Bitstream webp) (frames.getD k []) = none := by
    show (match dataURLToUint8Array (frames.getD k []) with
      | none => none
      | some webp => extractVP8Bitstream webp) = none
    rw [hdec]
    exact hfail
  rw [mapOrNone_eq_none _ frames _ hmem hg]

/-- C6 witness: a single data URL whose decoded bytes (3 bytes) contain no
VP8 bitstream; the whole mux returns no output. -/
theorem c6_abort_on_failure_witness :
    fromImageArray [['d', 'a', 't', 'a', ',', 'A', 'A', 'A', 'A']] 10 2 2 =
      none :=
  c6_abort_on_failure [['d', 'a', 't', 'a', ',', 'A', 'A', 'A', 'A']] 10 2 2 0
    (by decide) [0, 0, 0] (by decide) (by decide)

/-! ### Claim C7 -/

/-- C7: the muxer is deterministic — two invocations with identical frame
sequences, fps, width and height produce byte-for-byte identical output
(the embedding is a pure function of these four inputs; the source consults
no clock, random source or other ambient state). -/
theorem c7_deterministic (f1 f2 : List (List Char))
    (fps1 fps2 w1 w2 h1 h2 : Nat) (hf : f1 = f2) (hfps : fps1 = fps2)
    (hw : w1 = w2) (hh : h1 = h2) :
    fromImageArray f1 fps1 w1 h1 = fromImageArray f2 fps2 w2 h2 := by
  subst hf
  subst hfps
  subst hw
  subst hh
  rfl

/-- C7 witness: determinism instantiated at a concrete invocation. -/
theorem c7_deterministic_witness :
    fromImageArray [] 30 4 4 = fromImageArray [] 30 4 4 :=
  c7_deterministic [] [] 30 30 4 4 4 4 rfl rfl rfl rfl

/-! ### Claim C8 -/

/-- C8: the empty frame list is not rejected: for any fps the entry point
returns a document consisting of the EBML header and a Segment holding
SegmentInfo (whose stored duration is the 8 zero bytes of the double 0.0),
Tracks, and a Cluster whose payload is only the zero-valued cluster
timecode element — zero SimpleBlocks. -/
theorem c8_empty_input (fps width height d : Nat) :
    fromImageArray [] fps width height =
        some (createWebM [] (frameDuration fps) width height) ∧
      createWebM [] d width height =
        ebmlHeader ++ encodeElement [0x18, 0x53, 0x80, 0x67]
          (segmentInfo 0 ++ tracksElement width height ++
            encodeElement [0x1f, 0x43, 0xb6, 0x75] clusterTimecode) ∧
      simpleBlocks [] 0 d = [] ∧
      clusterTimecode = encodeElement [0xe7] [0, 0] ∧
      segmentInfo 0 = encodeElement [0x15, 0x49, 0xa9, 0x66]
        (encodeElement [0x2a, 0xd7, 0xb1] [0x00, 0x0f, 0x42, 0x40] ++
         encodeElement [0x44, 0x89] (List.replicate 8 0) ++
         encodeElement [0x4d, 0x80] animArrangeBytes ++
         encodeElement [0x57, 0x41] animArrangeBytes) := by
  have hf0 : float64ToArray (((0 : Nat) : ℚ) / 1000) = List.replicate 8 0 := by
    have h0 : (((0 : Nat) : ℚ) / 1000) = 0 := by norm_num
    rw [h0]
    unfold float64ToArray float64Bits
    rw [if_pos rfl]
    decide
  refine ⟨rfl, ?_, rfl, by decide, ?_⟩
  · unfold createWebM cluster
    simp [simpleBlocks]
  · unfold segmentInfo
    rw [hf0, show uintToArray 1000000 4 = [0x00, 0x0f, 0x42, 0x40] from by decide]

/-- C8 witness: the empty-input shape instantiated at fps 24 and 2x2
pixels. -/
theorem c8_empty_input_witness :
    fromImageArray [] 24 2 2 = some (createWebM [] (frameDuration 24) 2 2) ∧
      createWebM [] 100 2 2 =
        ebmlHeader ++ encodeElement [0x18, 0x53, 0x80, 0x67]
          (segmentInfo 0 ++ tracksElement 2 2 ++
            encodeElement [0x1f, 0x43, 0xb6, 0x75] clusterTimecode) ∧
      simpleBlocks [] 0 100 = [] ∧
      clusterTimecode = encodeElement [0xe7] [0, 0] ∧
      segmentInfo 0 = encodeElement [0x15, 0x49, 0xa9, 0x66]
        (encodeElement [0x2a, 0xd7, 0xb1] [0x00, 0x0f, 0x42, 0x40] ++
         encodeElement [0x44, 0x89] (List.replicate 8 0) ++
         encodeElement [0x4d, 0x80] animArrangeBytes ++
         encodeElement [0x57, 0x41] animArrangeBytes) :=
  c8_empty_input 24 2 2 100

/-! ### Claim C9 -/

/-- C9 counterexample: 34 frames at fps 1 (frame duration 1000 ms).  Block
32 stores timecode 32000 but block 33 stores 33000, which does not fit the
signed 16-bit range (33000 > 32767): read back as a signed 16-bit value it
is -32536, so the stored sequence is not monotonically non-decreasing
either.  The source does not guard against this overflow. -/
theorem c9_timecode_wrap :
    frameDuration 1 = 1000 ∧
      blockTimecode
        ((simpleBlocks (List.replicate 34 [0]) 0 1000).getD 32 []) = 32000 ∧
      blockTimecode
        ((simpleBlocks (List.replicate 34 [0]) 0 1000).getD 33 []) = 33000 ∧
      ¬ (33000 : Nat) ≤ 32767 ∧ s16 33000 < s16 32000 := by
  refine ⟨by decide, by decide, by decide, by decide, by decide⟩

/-- C9 (amended): for any frame sequence (each frame small enough for its
size vint to be well formed) and any frame duration, every emitted
SimpleBlock has track-number byte 0x81 (track 1) and keyframe flag byte
0x80; and provided every assigned timecode fits the signed 16-bit range
(`(N - 1) * frameDurationMs ≤ 32767`), the stored timecode sequence starts
at 0, is monotonically non-decreasing in frame order, and every stored
timecode is at most 32767.  Without that bound the 16-bit field wraps. -/
theorem c9_block_invariants (frames : List (List Nat)) (d : Nat)
    (hsz : ∀ f ∈ frames, f.length + 4 < 2 ^ 31) :
    (∀ k, k < frames.length → ∃ tc,
        parseSimpleBlock ((simpleBlocks frames 0 d).getD k []) =
          some (0x81, tc, 0x80, frames.getD k [])) ∧
      ((frames.length - 1) * d ≤ 32767 →
        (0 < frames.length →
            blockTimecode ((simpleBlocks frames 0 d).getD 0 []) = 0) ∧
          (∀ j k, j ≤ k → k < frames.length →
            blockTimecode ((simpleBlocks frames 0 d).getD j []) ≤
              blockTimecode ((simpleBlocks frames 0 d).getD k [])) ∧
          (∀ k, k < frames.length →
            blockTimecode ((simpleBlocks frames 0 d).getD k []) ≤ 32767)) := by
  have hszk : ∀ k, k < frames.length → (frames.getD k []).length + 4 < 2 ^ 31 := by
    intro k hk
    refine hsz _ ?_
    rw [List.getD_eq_getElem frames [] hk]
    exact List.getElem_mem hk
  constructor
  · intro k hk
    rw [simpleBlocks_getD frames 0 d k hk, Nat.zero_add]
    exact ⟨_, parseSimpleBlock_createSimpleBlock _ _ (hszk k hk)⟩
  · intro hfit
    have key : ∀ k, k < frames.length →
        blockTimecode ((simpleBlocks frames 0 d).getD k []) = k * d := by
      intro k hk
      rw [simpleBlocks_getD frames 0 d k hk, Nat.zero_add]
      refine blockTimecode_createSimpleBlock _ _ (hszk k hk) ?_
      calc k * d ≤ (frames.length - 1) * d :=
            Nat.mul_le_mul_right d (by omega)
        _ ≤ 32767 := hfit
    refine ⟨?_, ?_, ?_⟩
    · intro hpos
      rw [key 0 hpos]
      exact Nat.zero_mul d
    · intro j k hjk hk
      rw [key j (by omega), key k hk]
      exact Nat.mul_le_mul_right d hjk
    · intro k hk
      rw [key k hk]
      calc k * d ≤ (frames.length - 1) * d :=
            Nat.mul_le_mul_right d (by omega)
        _ ≤ 32767 := hfit

/-- C9 witness: the invariants instantiated at two one-byte frames with a
700 ms frame duration. -/
theorem c9_block_invariants_witness :
    (∀ k, k < ([[1], [2]] : List (List Nat)).length → ∃ tc,
        parseSimpleBlock ((simpleBlocks [[1], [2]] 0 700).getD k []) =
          some (0x81, tc, 0x80, ([[1], [2]] : List (List Nat)).getD k [])) ∧
      ((([[1], [2]] : List (List Nat)).length - 1) * 700 ≤ 32767 →
        (0 < ([[1], [2]] : List (List Nat)).length →
            blockTimecode ((simpleBlocks [[1], [2]] 0 700).getD 0 []) = 0) ∧
          (∀ j k, j ≤ k → k < ([[1], [2]] : List (List Nat)).length →
            blockTimecode ((simpleBlocks [[1], [2]] 0 700).getD j []) ≤
              blockTimecode ((simpleBlocks [[1], [2]] 0 700).getD k [])) ∧
          (∀ k, k < ([[1], [2]] : List (List Nat)).length →
            blockTimecode ((simpleBlocks [[1], [2]] 0 700).getD k []) ≤
              32767)) :=
  c9_block_invariants [[1], [2]] 700 (by decide)

/-! ### Claim C10 -/

theorem encodeElement_mid (id data mid : List Nat)
    (h : ∃ p q, data = p ++ mid ++ q) :
    ∃ p q, encodeElement id data = p ++ mid ++ q := by
  obtain ⟨p, q, hpq⟩ := h
  refine ⟨id ++ encodeVint data.length ++ p, q, ?_⟩
  unfold encodeElement
  rw [hpq]
  simp [List.append_assoc]

theorem append_mid_left (a : List Nat) {b mid : List Nat}
    (h : ∃ p q, b = p ++ mid ++ q) : ∃ p q, a ++ b = p ++ mid ++ q := by
  obtain ⟨p, q, hpq⟩ := h
  refine ⟨a ++ p, q, ?_⟩
  rw [hpq]
  simp [List.append_assoc]

/-- C10: the pixel-width and pixel-height sub-elements of the track entry
store their values via `uintToArray(_, 2)`, exactly 2 big-endian bytes: the
stored 16-bit value is the input reduced modulo 65536, equal to the input
whenever it is below 65536, and no error is ever raised for larger values. -/
theorem c10_dimension_bytes (width height v : Nat) :
    (∃ p q, trackEntry width height =
        p ++ encodeElement [0xb0] (uintToArray width 2) ++ q) ∧
      (∃ p q, trackEntry width height =
        p ++ encodeElement [0xba] (uintToArray height 2) ++ q) ∧
      uintToArray v 2 = [v / 2 ^ 8 % 2 ^ 8, v % 2 ^ 8] ∧
      v / 2 ^ 8 % 2 ^ 8 * 2 ^ 8 + v % 2 ^ 8 = v % 2 ^ 16 ∧
      (v < 2 ^ 16 →
        uintToArray v 2 = [v / 2 ^ 8, v % 2 ^ 8] ∧
          v / 2 ^ 8 * 2 ^ 8 + v % 2 ^ 8 = v) := by
  have hu : uintToArray v 2 = [jsShr8 v % 2 ^ 8, v % 2 ^ 8] := rfl
  have hu2 : uintToArray v 2 = [v / 2 ^ 8 % 2 ^ 8, v % 2 ^ 8] := by
    rw [hu, jsShr8_mod256]
  have hvw : ∃ p q, videoDims width height =
      p ++ encodeElement [0xb0] (uintToArray width 2) ++ q := by
    unfold videoDims
    exact encodeElement_mid _ _ _
      ⟨[], encodeElement [0xba] (uintToArray height 2), by simp⟩
  have hvh : ∃ p q, videoDims width height =
      p ++ encodeElement [0xba] (uintToArray height 2) ++ q := by
    unfold videoDims
    exact encodeElement_mid _ _ _
      ⟨encodeElement [0xb0] (uintToArray width 2), [], by simp⟩
  refine ⟨?_, ?_, hu2, ?_, ?_⟩
  · unfold trackEntry
    exact encodeElement_mid _ _ _ (append_mid_left _ hvw)
  · unfold trackEntry
    exact encodeElement_mid _ _ _ (append_mid_left _ hvh)
  · norm_num
    omega
  · intro h16
    have hlt : v / 2 ^ 8 < 2 ^ 8 := by norm_num at h16 ⊢; omega
    constructor
    · rw [hu2, Nat.mod_eq_of_lt hlt]
    · norm_num at h16 ⊢
      omega

/-- C10 witness: the dimension bytes evaluated at width 2, height 2 and the
oversized value 70000 (stored as 70000 mod 65536 = 4464). -/
theorem c10_dimension_bytes_witness :
    (∃ p q, trackEntry 2 2 =
        p ++ encodeElement [0xb0] (uintToArray 2 2) ++ q) ∧
      (∃ p q, trackEntry 2 2 =
        p ++ encodeElement [0xba] (uintToArray 2 2) ++ q) ∧
      uintToArray 70000 2 = [70000 / 2 ^ 8 % 2 ^ 8, 70000 % 2 ^ 8] ∧
      70000 / 2 ^ 8 % 2 ^ 8 * 2 ^ 8 + 70000 % 2 ^ 8 = 70000 % 2 ^ 16 ∧
      (70000 < 2 ^ 16 →
        uintToArray 70000 2 = [70000 / 2 ^ 8, 70000 % 2 ^ 8] ∧
          70000 / 2 ^ 8 * 2 ^ 8 + 70000 % 2 ^ 8 = 70000) :=
  c10_dimension_bytes 2 2 70000

end Whammy
